import Mathlib

/-!
Verification of the postkasse mail-backup core against its specification.

The Rust source is shallowly embedded: pure fragments become Lean functions,
the stateful sync loops become explicit state-passing functions over an
environment that models the remote server, and fallible operations return
Except.  Identifiers are modelled as Lean Strings; the Rust code slices
byte strings, which coincides with character operations for the ASCII
identifiers produced by JMAP servers.
-/

namespace Postkasse

/-! ## Data model (jmap_client entity shapes used by the code) -/

/-- Model of jmap_client Mailbox as used by the code: an identifier, an
optional parent identifier, a display name and an optional role.  The
source reads these through accessors returning Option; the code calls
unwrap_or_default on the id, which the spec data model declares always
present, so id is modelled as a plain String. -/
structure Mailbox where
  id : String
  parent_id : Option String
  name : String
  role : Option String
deriving DecidableEq, Repr

/-- Model of jmap_client Email restricted to the fields the verified code
reads: id, blob_id, the mailbox-membership set, the subject and the
receivedAt timestamp (seconds since epoch, optional exactly as in the
source where received_at returns Option of i64).  The repeatable address
fields (from, to, cc) are carried verbatim into search documents by the
source and are not referenced by any claim, so they are omitted here. -/
structure Email where
  id : String
  blob_id : String
  mailbox_ids : List String
  subject : Option String
  received_at : Option Int
deriving DecidableEq, Repr

/-- Projection of a mailbox list to its identifier list, as the source
does with iter().map(|m| m.id()). -/
def mids (l : List Mailbox) : List String := l.map (fun m => m.id)

/-! ## Content-address scheme (src/core/email.rs backup_email, backup_blob;
src/core/mailboxes.rs process_mailbox; src/core/progress.rs) -/

/-- Path for a message object, from backup_email in src/core/email.rs:
format "/emails/{}/{}.json" with the first three characters of the id.
The Rust expression id[..3] panics when the identifier is shorter than
three bytes; the panic is modelled as none.  There is no defensive length
check in the source. -/
def email_path (id : String) : Option String :=
  if 3 ≤ id.length then some ("/emails/" ++ id.take 3 ++ "/" ++ id ++ ".json")
  else none

/-- Path for a binary payload object, from backup_blob in
src/core/email.rs: format "/blobs/{}/{}" with the first two characters of
the blob id and no extension.  blob_id[..2] panics for shorter ids,
modelled as none. -/
def blob_path (id : String) : Option String :=
  if 2 ≤ id.length then some ("/blobs/" ++ id.take 2 ++ "/" ++ id)
  else none

/-- Path for a mailbox object, from process_mailbox in
src/core/mailboxes.rs: format "/mailboxes/{}.json", unsharded. -/
def mailbox_path (id : String) : String :=
  "/mailboxes/" ++ id ++ ".json"

/-- Path for a checkpoint file, from read_backup_progress and
write_backup_progress: format "/progress/{}" applied to the file name;
the sync passes pass "email.json" and "mailboxes.json". -/
def progress_path (file : String) : String :=
  "/progress/" ++ file

/-! ## Page size (src/core/helpers.rs max_objects_in_get) -/

/-- Model of max_objects_in_get: the session capability value when
advertised, defaulted to 50 when absent, capped at 50.  Source:
client.session().core_capabilities().map(|c| c.max_objects_in_get())
.unwrap_or(50).min(50). -/
def max_objects_in_get (capability : Option Nat) : Nat :=
  min (capability.getD 50) 50

/-! ## Full-text indexing and search (src/core/search.rs) -/

/-- Model of the parsed binary payload (mail_parser Message) restricted to
what write_document reads: body_html(0), an optional body text. -/
structure ParsedMessage where
  body_html : Option String
deriving DecidableEq, Repr

/-- Model of MessageParser default output when parse fails and the code
falls back with unwrap_or_default: a message with no body. -/
def empty_message : ParsedMessage := ⟨none⟩

/-- Model of a tantivy document restricted to the fields the claims
reference: the stored id, blob_id and subject fields and the
searchable-only body field. -/
structure Doc where
  id : String
  blob_id : String
  subject : String
  body : String
deriving DecidableEq, Repr

/-- Model of write_document in src/core/search.rs: the document takes the
id and blob_id of the email, the subject defaulted to empty, and the body
text body_html(0).unwrap_or_default() of the parsed message. -/
def write_document (email : Email) (message : ParsedMessage) : Doc :=
  ⟨email.id, email.blob_id, email.subject.getD "", message.body_html.getD ""⟩

/-- Model of a search result row as the SearchResult struct in
src/core/search.rs. -/
structure SearchResult where
  id : String
  blob_id : String
  subject : String
deriving DecidableEq, Repr

/-- Projection of a hit document into a SearchResult, translated from the
result loop of search in src/core/search.rs lines 141 to 161: the id
column is read from the blob_id stored field (doc.get_first(fields
["blob_id"]) in the source), the blob_id column from the blob_id field
and the subject column from the subject field. -/
def to_search_result (d : Doc) : SearchResult :=
  ⟨d.blob_id, d.blob_id, d.subject⟩

/-- Helper for whitespace tokenisation over the character list of a
string. -/
def words_aux : List Char → List Char → List String
  | [], cur => [String.mk cur.reverse]
  | c :: rest, cur =>
    if c.toNat = 32 then String.mk cur.reverse :: words_aux rest []
    else words_aux rest (c :: cur)

/-- Whitespace tokenisation of a field value, modelling the tantivy
default tokenizer on space-separated text. -/
def tokens (s : String) : List String := words_aux s.data []

/-- Model of the tantivy query match over the searchable surface used by
search: a document matches when the query term occurs as a token of the
subject or the body.  The QueryParser is built over exactly the subject
and body fields in the source. -/
def doc_matches (q : String) (d : Doc) : Bool :=
  (tokens d.subject).contains q || (tokens d.body).contains q

/-- Model of search in src/core/search.rs: the index is the list of
committed documents; matching documents are returned in relevance order
(modelled abstractly as index order), truncated to the limit defaulted to
100 (TopDocs::with_limit(limit.unwrap_or(100))), and projected with
to_search_result.  An unmatched query yields the empty list, not an
error. -/
def search (index : List Doc) (q : String) (limit : Option Nat) : List SearchResult :=
  ((index.filter (doc_matches q)).take (limit.getD 100)).map to_search_result

/-- Model of index_emails in src/core/email.rs: the page of emails is
zipped with the per-email blob download results; for each pair the source
evaluates blob.as_ref().map(parse).map(write_document), so a document is
built only when the download result is Ok, with the parse failure
defaulted to the empty message; a pair whose download failed contributes
no document.  The parser is passed as a function modelling
mail_parser MessageParser parse, which returns none on unparseable
input. -/
def index_emails (parse : List Nat → Option ParsedMessage)
    (page : List (Email × Except String (List Nat))) : List Doc :=
  page.foldr
    (fun pr acc =>
      match pr.2 with
      | Except.ok blob => write_document pr.1 ((parse blob).getD empty_message) :: acc
      | Except.error _ => acc)
    []

/-! ## Checkpoints and sync loops (src/core/email.rs backup_emails,
src/core/mailboxes.rs mailboxes, src/backup/mailboxes.rs mailboxes,
src/core/progress.rs, src/backup/progress.rs)

Timestamps are modelled as Int milliseconds since the epoch, matching the
DateTime values the source stores; the source converts the seconds-valued
received_at with DateTime::from_timestamp_millis(date * 1000), whose
out-of-range none case only widens the already-modelled none case of
received_at and is therefore folded into it.  The unwrap_or_default
fallback of the source is the epoch, modelled as 0. -/

/-- Watermark checkpoint update after one page, from backup_emails in
src/core/email.rs: last_processed_date is set to the receivedAt of the
last email of the page, defaulted to the epoch when the page is empty or
the last email carries no receivedAt (the unwrap_or_default chain in the
source). -/
def watermark_update (_w : Int) (page : List Email) : Int :=
  ((page.getLast?.bind (fun e => e.received_at)).map (fun t => t * 1000)).getD 0

/-- Watermark checkpoint value after a sequence of processed pages. -/
def watermark_run (w : Int) : List (List Email) → Int
  | [] => w
  | p :: ps => watermark_run (watermark_update w p) ps

/-- Server-contract predicate for one page relative to the current
watermark: the page has a last email whose receivedAt is present and not
before the watermark.  This is what the JMAP query contract (filter after
the watermark, sorted ascending by receivedAt) promises about a fetched
page when it is nonempty and well-formed. -/
def page_ok (w : Int) (page : List Email) : Bool :=
  match page.getLast?.bind (fun e => e.received_at) with
  | some t => decide (w ≤ t * 1000)
  | none => false

/-- Server-contract predicate for a whole sequence of pages, each judged
against the watermark in force when it was fetched. -/
def contract_run (w : Int) : List (List Email) → Bool
  | [] => true
  | p :: ps => page_ok w p && contract_run (watermark_update w p) ps

/-- Offset checkpoint of the mailbox backup pass, from BackupProgress in
src/backup/progress.rs: a position counter plus the list of processed
identifiers. -/
structure MailboxProgress where
  position : Nat
  items : List String
deriving DecidableEq, Repr

/-- Offset checkpoint update after one page, from the loop of mailboxes
in src/backup/mailboxes.rs: position increases by the page length and the
page identifiers are appended to items. -/
def offset_update (p : MailboxProgress) (page : List Mailbox) : MailboxProgress :=
  ⟨p.position + page.length, p.items ++ mids page⟩

/-- Offset checkpoint after a sequence of processed pages. -/
def offset_run (p : MailboxProgress) : List (List Mailbox) → MailboxProgress
  | [] => p
  | q :: qs => offset_run (offset_update p q) qs

/-- Model of the mailbox sync loop of mailboxes in src/core/mailboxes.rs.
The environment env gives the page the server returns for a (position,
limit) query; the source always fetches at position 0 with limit
max_objects, processes the page, advances the progress position by the
page length, and exits only when the position has reached the total.
There is no empty-page check in the source.  The loop is modelled with
explicit fuel: none means the loop was still running when the fuel ran
out. -/
def mailboxes_sync (env : Nat → Nat → List Mailbox) (max_objects total : Nat) :
    Nat → Nat → Option Nat
  | 0, _ => none
  | fuel + 1, pos =>
    let page := env 0 max_objects
    let pos2 := pos + page.length
    if total ≤ pos2 then some pos2
    else mailboxes_sync env max_objects total fuel pos2

/-- Model of the email sync loop of backup_emails in src/core/email.rs.
The environment gives the page returned for a (watermark, position,
limit) query; each iteration processes the page, updates the watermark
checkpoint, advances the position by the page length, and exits only when
the position has reached the total.  There is no empty-page check in the
source. -/
def backup_emails_loop (env : Int → Nat → Nat → List Email) (max_objects total : Nat) :
    Nat → Int → Nat → Option (Int × Nat)
  | 0, _, _ => none
  | fuel + 1, w, pos =>
    let page := env w pos max_objects
    let w2 := watermark_update w page
    let pos2 := pos + page.length
    if total ≤ pos2 then some (w2, pos2)
    else backup_emails_loop env max_objects total fuel w2 pos2

/-! ## Topological sort of mailboxes (src/core/helpers.rs sort_mailboxes)

The source builds a petgraph DiGraph with one node per mailbox and an
edge from parent to child whenever the parent identifier of a mailbox is
the identifier of another input mailbox, then calls petgraph toposort,
mapping the result back to mailboxes and mapping a detected cycle to an
error naming a node participating in the cycle.  The external petgraph
algorithm is modelled here by its documented contract as an executable
topological sort: repeatedly output a mailbox with no pending dependency
(its parent absent from the remaining mailboxes), and when none exists
report the identifier of a node participating in a cycle, found by
following the parent chain far enough to land inside a cycle.  The source
wraps that identifier in the message "Error sorting mailboxes: cycle
detected at node ..."; the model carries the identifier itself as the
error value. -/

/-- Parent lookup inside a mailbox list: the first input mailbox whose
identifier is the parent identifier of m, as the parent edge is built in
sort_mailboxes. -/
def parent_of (mbs : List Mailbox) (m : Mailbox) : Option Mailbox :=
  m.parent_id.bind (fun p => mbs.find? (fun x => x.id == p))

/-- Iterated optional parent chain. -/
def parent_iter (mbs : List Mailbox) : Nat → Mailbox → Option Mailbox
  | 0, m => some m
  | k + 1, m => (parent_of mbs m).bind (parent_iter mbs k)

/-- Decidable test that a mailbox participates in a cycle of the parent
graph over mbs: some positive number of parent steps, at most the size of
the input, returns to the mailbox itself. -/
def on_cycle (mbs : List Mailbox) (m : Mailbox) : Bool :=
  (List.range mbs.length).any (fun k => parent_iter mbs (k + 1) m == some m)

/-- Decidable test that the parent graph over mbs contains a cycle. -/
def has_cycle (mbs : List Mailbox) : Bool :=
  mbs.any (on_cycle mbs)

/-- Total parent step used to locate a cycle witness: the parent inside l
when it exists, the mailbox itself otherwise. -/
def parent_in (l : List Mailbox) (m : Mailbox) : Mailbox :=
  match parent_of l m with
  | some x => x
  | none => m

/-- Iterated total parent step. -/
def iter_total (l : List Mailbox) : Nat → Mailbox → Mailbox
  | 0, m => m
  | k + 1, m => iter_total l k (parent_in l m)

/-- Identifier reported for a detected cycle: follow the parent chain
from the first remaining mailbox as many steps as there are remaining
mailboxes; when every remaining mailbox has its parent among the
remaining ones this lands on a node of a cycle. -/
def cycle_node (l : List Mailbox) : String :=
  match l.head? with
  | none => ""
  | some m => (iter_total l l.length m).id

/-- A mailbox is ready when it has no pending dependency: no parent, or a
parent that is not among the remaining mailboxes (either never in the
input, or already output). -/
def ready (remaining : List Mailbox) (m : Mailbox) : Bool :=
  match m.parent_id with
  | none => true
  | some p => !((mids remaining).contains p)

/-- First ready mailbox among the remaining ones. -/
def pick_ready (remaining : List Mailbox) : Option Mailbox :=
  remaining.find? (ready remaining)

/-- Work loop of the modelled topological sort: move ready mailboxes from
remaining to the accumulator (stored in reverse) until none remain, or
report a cycle node when no mailbox is ready.  The loop is structurally
recursive on a fuel that sort_mailboxes sets to the input length; one
mailbox leaves remaining per step, so the fuel never runs out before
remaining is empty. -/
def sort_loop : Nat → List Mailbox → List Mailbox → Except String (List Mailbox)
  | 0, remaining, acc =>
    if remaining.isEmpty then Except.ok acc.reverse
    else Except.error (cycle_node remaining)
  | fuel + 1, remaining, acc =>
    match pick_ready remaining with
    | some m => sort_loop fuel (remaining.erase m) (m :: acc)
    | none =>
      if remaining.isEmpty then Except.ok acc.reverse
      else Except.error (cycle_node remaining)

/-- Model of sort_mailboxes in src/core/helpers.rs. -/
def sort_mailboxes (mailboxes : List Mailbox) : Except String (List Mailbox) :=
  sort_loop mailboxes.length mailboxes []

/-- Distinctness of the mailbox identifiers of a list, as the spec data
model guarantees for server-assigned identifiers. -/
def nodup_ids (l : List Mailbox) : Prop := (mids l).Nodup

instance nodup_ids_decidable (l : List Mailbox) : Decidable (nodup_ids l) :=
  List.nodupDecidable (mids l)

/-- Dependency-order property of an output list: wherever a mailbox with
a parent reference appears, if the parent identifier occurs anywhere in
the list then it occurs strictly earlier. -/
def parent_before (l : List Mailbox) : Prop :=
  ∀ l₁ c l₂, l = l₁ ++ c :: l₂ → ∀ p, c.parent_id = some p →
    p ∈ mids l → p ∈ mids l₁

/-- Loop invariant of the modelled sort: the accumulator holds the
output in reverse, and each accumulated mailbox has its parent neither at
its own output position nor later (later output = the part of the
accumulator in front of it, plus everything still remaining). -/
def acc_ok : List Mailbox → List Mailbox → Prop
  | _, [] => True
  | later, m :: rest =>
    (∀ p, m.parent_id = some p → p ∉ mids (m :: later)) ∧ acc_ok (m :: later) rest

/-- Stuck configuration of the sort: every remaining mailbox has its
parent among the remaining mailboxes. -/
def all_blocked (rem : List Mailbox) : Prop :=
  ∀ m, m ∈ rem → ∃ p, m.parent_id = some p ∧ p ∈ mids rem

/-! ## Restore reconciliation (src/core/email.rs restore_emails)

The storage backend is modelled as association lists keyed by entity
identifier; the source reads each object at its content address (the path
functions verified above) and deserialises it, and a missing or
undecodable object is an error for the whole restore.  The remote server
is modelled by the mailbox list its query returns (the source fetches up
to 10000 mailboxes in one call).  The outcome records the remote
creations the source performs: one create_mailboxes call with the sorted
mailboxes when the sort succeeds — and, notably, no email creation at
all: the source returns Ok(()) directly after creating mailboxes, even
though its own doc comment ends with the step Finally restore the
emails. -/

/-- Storage contents visible to restore. -/
structure RestoreStore where
  emails : List (String × Email)
  mailboxes : List (String × Mailbox)

/-- Load the requested emails from storage, failing on the first
identifier whose object is missing or undecodable, as the try_collect in
the source fails the whole restore. -/
def load_emails (store : RestoreStore) : List String → Except String (List Email)
  | [] => Except.ok []
  | id :: rest =>
    match store.emails.lookup id with
    | none => Except.error id
    | some e => (load_emails store rest).map (fun es => e :: es)

/-- Load the missing mailboxes from storage, failing on the first
identifier whose object is missing or undecodable. -/
def load_mailboxes (store : RestoreStore) : List String → Except String (List Mailbox)
  | [] => Except.ok []
  | id :: rest =>
    match store.mailboxes.lookup id with
    | none => Except.error id
    | some m => (load_mailboxes store rest).map (fun ms => m :: ms)

/-- Mailbox identifiers referenced by the loaded emails and absent from
the server, from restore_emails: the union of the mailbox_ids of the
emails (a HashSet in the source, modelled as dedup) minus the identifiers
on the server. -/
def missing_mailbox_ids (server_ids : List String) (emails : List Email) : List String :=
  ((emails.flatMap (fun e => e.mailbox_ids)).dedup).filter
    (fun id => !(server_ids.contains id))

/-- Remote effects and result of one restore call. -/
structure RestoreOutcome where
  created_mailboxes : List Mailbox
  created_emails : List Email
  result : Except String Unit
deriving Repr

/-- Model of restore_emails in src/core/email.rs: fetch the server
mailboxes, load the requested emails from storage, compute the referenced
mailbox identifiers missing from the server, load those mailboxes from
storage, topologically sort them, create them remotely in sorted order,
and return success.  Every failure before the creation step aborts the
restore with no remote creation.  No emails are created. -/
def restore_emails (server : List Mailbox) (store : RestoreStore)
    (req : List String) : RestoreOutcome :=
  match load_emails store req with
  | Except.error e => ⟨[], [], Except.error e⟩
  | Except.ok emails =>
    match load_mailboxes store (missing_mailbox_ids (mids server) emails) with
    | Except.error e => ⟨[], [], Except.error e⟩
    | Except.ok to_restore =>
      match sort_mailboxes to_restore with
      | Except.error e => ⟨[], [], Except.error e⟩
      | Except.ok sorted => ⟨sorted, [], Except.ok ()⟩

/-! ## Demonstration environments used by concrete witnesses -/

/-- Acyclic two-mailbox hierarchy. -/
def demo_acyclic : List Mailbox :=
  [⟨"mbA", none, "A", none⟩, ⟨"mbB", some "mbA", "B", none⟩]

/-- Two mailboxes forming a parent cycle. -/
def demo_cyclic : List Mailbox :=
  [⟨"mbC", some "mbD", "C", none⟩, ⟨"mbD", some "mbC", "D", none⟩]

/-- Email referencing both cyclic mailboxes. -/
def demo_email_cyc : Email := ⟨"em1w", "b1", ["mbC", "mbD"], none, none⟩

/-- Storage holding the cyclic hierarchy and its referencing email. -/
def demo_store_cyc : RestoreStore :=
  ⟨[("em1w", demo_email_cyc)],
   [("mbC", ⟨"mbC", some "mbD", "C", none⟩), ("mbD", ⟨"mbD", some "mbC", "D", none⟩)]⟩

/-- Email referencing one missing mailbox. -/
def demo_email3 : Email := ⟨"em3w", "b3", ["mbB3"], none, none⟩

/-- Missing mailbox whose parent is neither on the server nor
referenced. -/
def demo_mb3 : Mailbox := ⟨"mbB3", some "mbP3", "B", none⟩

/-- Server already holding an unrelated mailbox. -/
def demo_server3 : List Mailbox := [⟨"mbA", none, "A", none⟩]

/-- Storage for the diff-exactness witness. -/
def demo_store3 : RestoreStore :=
  ⟨[("em3w", demo_email3)], [("mbB3", demo_mb3)]⟩

/-! ## Theorems -/

/-- C10: for every client session, the page size used for the sync
fetches is the minimum of the advertised maxObjectsInGet capability and
50, defaulting to 50 when the capability is absent, and therefore never
exceeds 50.  The single value computed by max_objects_in_get is passed
unchanged as the fetch limit of both sync passes by backup in
src/cli/backup.rs. -/
theorem page_size_capped :
    (∀ v, max_objects_in_get (some v) = min v 50) ∧
    max_objects_in_get none = 50 ∧
    (∀ c, max_objects_in_get c ≤ 50) := by
  refine ⟨fun v => rfl, rfl, fun c => ?_⟩
  cases c <;> simp [max_objects_in_get]

/-- C7 counterexample: the content-address functions for messages and
blobs do fail on identifiers shorter than the shard length: the source
slices id[..3] and blob_id[..2] with no defensive length check, a panic
modelled as none. -/
theorem short_id_path_failure :
    email_path "ab" = none ∧ blob_path "a" = none := by
  constructor <;> decide

/-- C7 amended: the mailbox and checkpoint path functions are total; the
message and blob path functions are not: an identifier shorter than the
shard length (3 characters for messages, 2 for blobs) makes them fail,
because no defensive length check exists in the source, while longer
identifiers always produce the sharded path. -/
theorem path_scheme_partiality :
    (∀ id, mailbox_path id = "/mailboxes/" ++ id ++ ".json") ∧
    (∀ file, progress_path file = "/progress/" ++ file) ∧
    (∀ id, 3 ≤ id.length → (email_path id).isSome = true) ∧
    (∀ id, id.length < 3 → email_path id = none) ∧
    (∀ id, 2 ≤ id.length → (blob_path id).isSome = true) ∧
    (∀ id, id.length < 2 → blob_path id = none) := by
  refine ⟨fun id => rfl, fun file => rfl, fun id h => ?_, fun id h => ?_,
    fun id h => ?_, fun id h => ?_⟩
  · simp [email_path, h]
  · simp [email_path]
    omega
  · simp [blob_path, h]
  · simp [blob_path]
    omega

/-- Witness for the amended C7 theorem at concrete identifiers. -/
theorem path_scheme_partiality_witness :
    (3 ≤ "abc".length ∧ (email_path "abc").isSome = true) ∧
    ("ab".length < 3 ∧ email_path "ab" = none) ∧
    (2 ≤ "ab".length ∧ (blob_path "ab").isSome = true) ∧
    ("a".length < 2 ∧ blob_path "a" = none) :=
  ⟨⟨by decide, path_scheme_partiality.2.2.1 "abc" (by decide)⟩,
   ⟨by decide, path_scheme_partiality.2.2.2.1 "ab" (by decide)⟩,
   ⟨by decide, path_scheme_partiality.2.2.2.2.1 "ab" (by decide)⟩,
   ⟨by decide, path_scheme_partiality.2.2.2.2.2 "a" (by decide)⟩⟩

/-- C8: the storage paths written are exactly /mailboxes/{id}.json for a
mailbox (unsharded), /emails/{first 3 characters}/{id}.json for a
message, /blobs/{first 2 characters}/{blob id} with no extension for a
payload, and /progress/{file}.json for the two checkpoints, whenever the
identifier is long enough for the sharding scheme to apply. -/
theorem storage_layout_paths :
    (∀ id, mailbox_path id = "/mailboxes/" ++ id ++ ".json") ∧
    (∀ id, 3 ≤ id.length →
      email_path id = some ("/emails/" ++ id.take 3 ++ "/" ++ id ++ ".json")) ∧
    (∀ id, 2 ≤ id.length →
      blob_path id = some ("/blobs/" ++ id.take 2 ++ "/" ++ id)) ∧
    progress_path "email.json" = "/progress/email.json" ∧
    progress_path "mailboxes.json" = "/progress/mailboxes.json" := by
  refine ⟨fun id => rfl, fun id h => ?_, fun id h => ?_, rfl, rfl⟩ <;>
    simp [email_path, blob_path, h]

/-- Witness for the C8 theorem at concrete identifiers. -/
theorem storage_layout_paths_witness :
    (3 ≤ "abcd".length ∧
      email_path "abcd" = some ("/emails/" ++ "abcd".take 3 ++ "/" ++ "abcd" ++ ".json")) ∧
    (2 ≤ "bcd".length ∧
      blob_path "bcd" = some ("/blobs/" ++ "bcd".take 2 ++ "/" ++ "bcd")) :=
  ⟨⟨by decide, storage_layout_paths.2.1 "abcd" (by decide)⟩,
   ⟨by decide, storage_layout_paths.2.2.1 "bcd" (by decide)⟩⟩

/-- Reduction of the indexing step on a nonempty page. -/
theorem index_emails_cons (parse : List Nat → Option ParsedMessage)
    (pr : Email × Except String (List Nat)) (page : List (Email × Except String (List Nat))) :
    index_emails parse (pr :: page) =
      match pr.2 with
      | Except.ok blob => write_document pr.1 ((parse blob).getD empty_message) ::
          index_emails parse page
      | Except.error _ => index_emails parse page := rfl

/-- C4: the identifier column of every search result is read from the
blob_id stored field, so it equals the blob reference, not the message
identifier, contradicting the doc comment of search in src/core/search.rs
which says each result contains the jmap id.  Concretely, indexing the
message with identifier 123 and blob reference 456 and querying a term of
its body returns one result whose identifier column is 456. -/
theorem search_result_id_is_blob_reference :
    search [write_document ⟨"123", "456", [], some "Test email", none⟩
        ⟨some "Hello there"⟩] "Hello" (some 10) =
      [⟨"456", "456", "Test email"⟩] ∧
    search [write_document ⟨"123", "456", [], some "Test email", none⟩
        ⟨some "Hello there"⟩] "Goodbye" (some 10) = [] ∧
    "456" ≠ "123" := by
  refine ⟨by decide, by decide, by decide⟩

/-- C5 counterexample: a message whose binary payload failed to download
is skipped from the index entirely: the source maps write_document over
the download Result, so an Err download produces no document at all. -/
theorem failed_download_skipped_from_index :
    index_emails (fun _ => none)
      [(⟨"em1", "bl1", [], some "subject", none⟩, Except.error "download failed")] = [] := by
  decide

/-- C5 amended: every message whose payload download succeeded is
indexed, with the empty message (hence an empty body) substituted when
parsing the payload fails; a message whose payload download failed
contributes no document to the index: wherever such a pair sits in a
page, the indexed documents are exactly those of the page with the pair
removed. -/
theorem index_emails_best_effort :
    (∀ parse page e b, (e, Except.ok b) ∈ page →
        write_document e ((parse b).getD empty_message) ∈ index_emails parse page) ∧
    (∀ (parse : List Nat → Option ParsedMessage) (b : List Nat) e, parse b = none →
        write_document e ((parse b).getD empty_message) = write_document e empty_message ∧
        (write_document e empty_message).body = "") ∧
    (∀ parse page₁ e msg page₂,
        index_emails parse (page₁ ++ (e, Except.error msg) :: page₂) =
          index_emails parse (page₁ ++ page₂)) := by
  refine ⟨?_, ?_, ?_⟩
  · intro parse page e b hmem
    induction page with
    | nil => cases hmem
    | cons hd tl ih =>
      rw [index_emails_cons]
      rcases List.mem_cons.mp hmem with heq | htl
      · rw [← heq]
        exact List.mem_cons_self _ _
      · have hrec := ih htl
        rcases hsnd : hd.2 with msg | blob
        · simpa using hrec
        · simp only []
          exact List.mem_cons_of_mem _ hrec
  · intro parse b e h
    rw [h]
    exact ⟨rfl, rfl⟩
  · intro parse page₁ e msg page₂
    induction page₁ with
    | nil => rfl
    | cons hd tl ih =>
      rw [List.cons_append, index_emails_cons, List.cons_append, index_emails_cons]
      rcases hsnd : hd.2 with msg2 | blob <;> simp only [ih]

/-- Witness for the amended C5 theorem at a concrete page and parser. -/
theorem index_emails_best_effort_witness :
    ((⟨"em1", "bl1", [], none, none⟩, (Except.ok [1] : Except String (List Nat))) ∈
        [((⟨"em1", "bl1", [], none, none⟩ : Email),
          (Except.ok [1] : Except String (List Nat)))] ∧
      write_document ⟨"em1", "bl1", [], none, none⟩
          (((fun _ => none) [1]).getD empty_message) ∈
        index_emails (fun _ => none)
          [(⟨"em1", "bl1", [], none, none⟩, (Except.ok [1] : Except String (List Nat)))]) ∧
    ((fun (_ : List Nat) => (none : Option ParsedMessage)) [1] = none ∧
      write_document ⟨"em1", "bl1", [], none, none⟩
          (((fun _ => none) [1]).getD empty_message) =
        write_document ⟨"em1", "bl1", [], none, none⟩ empty_message ∧
      (write_document ⟨"em1", "bl1", [], none, none⟩ empty_message).body = "") :=
  ⟨⟨List.mem_singleton.mpr rfl,
    index_emails_best_effort.1 (fun _ => none) _ ⟨"em1", "bl1", [], none, none⟩ [1]
      (List.mem_singleton.mpr rfl)⟩,
   ⟨rfl,
    index_emails_best_effort.2.1 (fun _ => none) [1] ⟨"em1", "bl1", [], none, none⟩ rfl⟩⟩

/-- C6: neither sync loop stops on an empty page.  With one item reported
by the server total and every fetch returning the empty page, both loops
run forever (the model returns none for every amount of fuel): the only
exit condition in the source is position at least total, so an empty page
leaves the state unchanged and the loop refetches indefinitely. -/
theorem empty_page_never_stops :
    (∀ fuel, mailboxes_sync (fun _ _ => []) 50 1 fuel 0 = none) ∧
    (∀ fuel, backup_emails_loop (fun _ _ _ => []) 50 1 fuel 0 0 = none) := by
  constructor
  · intro fuel
    induction fuel with
    | zero => rfl
    | succ n ih => simpa [mailboxes_sync] using ih
  · intro fuel
    induction fuel with
    | zero => rfl
    | succ n ih => simpa [backup_emails_loop, watermark_update] using ih

/-- Splitting the watermark evolution over an append of page
sequences. -/
theorem watermark_run_append (a : List (List Email)) :
    ∀ w b, watermark_run w (a ++ b) = watermark_run (watermark_run w a) b := by
  induction a with
  | nil => intro w b; rfl
  | cons p ps ih => intro w b; exact ih (watermark_update w p) b

/-- Splitting the server-contract predicate over an append of page
sequences. -/
theorem contract_run_append (a : List (List Email)) :
    ∀ w b, contract_run w (a ++ b) =
      (contract_run w a && contract_run (watermark_run w a) b) := by
  induction a with
  | nil => intro w b; rfl
  | cons p ps ih =>
    intro w b
    show (page_ok w p && contract_run (watermark_update w p) (ps ++ b)) = _
    rw [ih]
    simp [contract_run, watermark_run, Bool.and_assoc]

/-- One contractual page never lowers the watermark. -/
theorem watermark_update_mono (w : Int) (page : List Email)
    (h : page_ok w page = true) : w ≤ watermark_update w page := by
  unfold page_ok at h
  unfold watermark_update
  rcases hl : page.getLast?.bind (fun e => e.received_at) with _ | t
  · rw [hl] at h; cases h
  · rw [hl] at h
    simpa using of_decide_eq_true h

/-- Splitting the offset evolution over an append of page sequences. -/
theorem offset_run_append (qs : List (List Mailbox)) :
    ∀ p q, offset_run p (qs ++ [q]) = offset_update (offset_run p qs) q := by
  induction qs with
  | nil => intro p q; rfl
  | cons r rs ih => intro p q; exact ih (offset_update p r) q

/-- C2 amended: over a sequence of processed pages, the offset
checkpoint position grows by exactly each page length, strictly for a
nonempty page; the watermark checkpoint is non-decreasing provided every
page satisfies the server contract (nonempty, with the receivedAt of its
last email present and not before the watermark in force when the page
was fetched).  Without that proviso the watermark is overwritten with the
epoch (see the counterexample), because the source replaces it by the
last receivedAt of the page with unwrap_or_default. -/
theorem checkpoint_monotonicity :
    (∀ w pages page rest, contract_run w (pages ++ page :: rest) = true →
        watermark_run w pages ≤ watermark_run w (pages ++ [page])) ∧
    (∀ p qs q, (offset_run p (qs ++ [q])).position =
        (offset_run p qs).position + q.length) ∧
    (∀ (p : MailboxProgress) (qs : List (List Mailbox)) q, q ≠ [] →
        (offset_run p qs).position < (offset_run p (qs ++ [q])).position) := by
  refine ⟨?_, ?_, ?_⟩
  · intro w pages page rest h
    rw [contract_run_append] at h
    have h2 := (Bool.and_eq_true _ _).mp h
    have hpage : page_ok (watermark_run w pages) page = true := by
      have := (Bool.and_eq_true _ _).mp h2.2
      exact this.1
    rw [watermark_run_append]
    exact watermark_update_mono _ _ hpage
  · intro p qs q
    rw [offset_run_append]
    rfl
  · intro p qs q hq
    rw [offset_run_append]
    show (offset_run p qs).position < (offset_run p qs).position + q.length
    have : q.length ≠ 0 := fun hz => hq (List.length_eq_zero.mp hz)
    omega

/-- Witness for the amended C2 theorem on a concrete contractual
two-page run and a concrete nonempty page. -/
theorem checkpoint_monotonicity_witness :
    (contract_run 0 ([[⟨"em1", "b1", [], none, some 5⟩]] ++
        [⟨"em2", "b2", [], none, some 7⟩] :: []) = true ∧
      watermark_run 0 [[⟨"em1", "b1", [], none, some 5⟩]] ≤
        watermark_run 0 ([[⟨"em1", "b1", [], none, some 5⟩]] ++
          [[⟨"em2", "b2", [], none, some 7⟩]])) ∧
    (([⟨"mbX", none, "X", none⟩] : List Mailbox) ≠ [] ∧
      (offset_run ⟨0, []⟩ []).position <
        (offset_run ⟨0, []⟩ ([] ++ [[⟨"mbX", none, "X", none⟩]])).position) :=
  ⟨⟨by decide,
    checkpoint_monotonicity.1 0 [[⟨"em1", "b1", [], none, some 5⟩]]
      [⟨"em2", "b2", [], none, some 7⟩] [] (by decide)⟩,
   ⟨by decide,
    checkpoint_monotonicity.2.2 ⟨0, []⟩ [] [⟨"mbX", none, "X", none⟩] (by decide)⟩⟩

/-- C2 counterexample: a successfully processed page whose last email
carries no receivedAt resets the watermark to the epoch, strictly
decreasing it; and a successfully processed empty page leaves the offset
position unchanged, so it does not strictly increase. -/
theorem checkpoint_monotonicity_counterexample :
    watermark_run 0 [[⟨"em1", "b1", [], none, some 5⟩],
        [⟨"em2", "b2", [], none, none⟩]] <
      watermark_run 0 [[⟨"em1", "b1", [], none, some 5⟩]] ∧
    (offset_run ⟨0, []⟩ [[]]).position =
      (offset_run ⟨0, []⟩ ([] : List (List Mailbox))).position := by
  exact ⟨by decide, rfl⟩

/-- C9: restore recreates the missing mailboxes but never recreates the
requested messages: on a restore request whose only referenced mailbox is
missing, the call succeeds, creates that mailbox, and creates no email,
although the doc comment of restore_emails in src/core/email.rs ends with
the step of restoring the emails. -/
theorem restore_omits_email_recreation :
    (restore_emails [⟨"mbA", none, "A", none⟩]
        ⟨[("em9a", ⟨"em9a", "b9", ["mbB9"], none, none⟩)],
         [("mbB9", ⟨"mbB9", some "mbA", "B", none⟩)]⟩
        ["em9a"]).result = Except.ok () ∧
    (restore_emails [⟨"mbA", none, "A", none⟩]
        ⟨[("em9a", ⟨"em9a", "b9", ["mbB9"], none, none⟩)],
         [("mbB9", ⟨"mbB9", some "mbA", "B", none⟩)]⟩
        ["em9a"]).created_mailboxes = [⟨"mbB9", some "mbA", "B", none⟩] ∧
    (restore_emails [⟨"mbA", none, "A", none⟩]
        ⟨[("em9a", ⟨"em9a", "b9", ["mbB9"], none, none⟩)],
         [("mbB9", ⟨"mbB9", some "mbA", "B", none⟩)]⟩
        ["em9a"]).created_emails = [] := by
  exact ⟨rfl, rfl, rfl⟩

/-! ### Facts about the modelled topological sort -/

/-- Membership in the identifier projection. -/
theorem mem_mids {p : String} {l : List Mailbox} :
    p ∈ mids l ↔ ∃ m, m ∈ l ∧ m.id = p := by
  simp [mids, List.mem_map]

/-- Identifier of a member occurs in the projection. -/
theorem mids_of_mem {m : Mailbox} {l : List Mailbox} (h : m ∈ l) : m.id ∈ mids l :=
  mem_mids.mpr ⟨m, h, rfl⟩

/-- With distinct identifiers, a shared identifier forces equality. -/
theorem nodup_ids_inj {l : List Mailbox} (h : nodup_ids l) {a b : Mailbox}
    (ha : a ∈ l) (hb : b ∈ l) (hid : a.id = b.id) : a = b :=
  List.inj_on_of_nodup_map h ha hb hid

/-- Characterisation of a not-ready mailbox. -/
theorem ready_false_iff {rem : List Mailbox} {m : Mailbox} :
    ready rem m = false ↔ ∃ p, m.parent_id = some p ∧ p ∈ mids rem := by
  unfold ready
  rcases h : m.parent_id with _ | p <;> simp [h]

/-- Characterisation of a ready mailbox. -/
theorem ready_true_iff {rem : List Mailbox} {m : Mailbox} :
    ready rem m = true ↔ ∀ p, m.parent_id = some p → p ∉ mids rem := by
  unfold ready
  rcases h : m.parent_id with _ | p <;> simp [h]

/-- A found ready mailbox is a ready member. -/
theorem pick_ready_mem {rem : List Mailbox} {m : Mailbox}
    (h : pick_ready rem = some m) : m ∈ rem ∧ ready rem m = true :=
  ⟨List.mem_of_find?_eq_some h, List.find?_some h⟩

/-- When no mailbox is ready, every remaining mailbox has its parent
among the remaining ones. -/
theorem pick_ready_none {rem : List Mailbox} (h : pick_ready rem = none) :
    all_blocked rem := by
  intro m hm
  have hf := List.find?_eq_none.mp h m hm
  exact ready_false_iff.mp (Bool.eq_false_iff.mpr hf)

/-- Decomposition of a successful parent lookup. -/
theorem parent_of_some {l : List Mailbox} {m x : Mailbox}
    (h : parent_of l m = some x) : x ∈ l ∧ m.parent_id = some x.id := by
  unfold parent_of at h
  rcases hp : m.parent_id with _ | p
  · rw [hp] at h; cases h
  · rw [hp] at h
    have hx := List.mem_of_find?_eq_some h
    have hxp : x.id = p := by simpa using List.find?_some h
    exact ⟨hx, by rw [hxp]⟩

/-- A parent identifier occurring in the list makes the lookup
succeed. -/
theorem parent_of_total {l : List Mailbox} {m : Mailbox} {p : String}
    (hp : m.parent_id = some p) (hin : p ∈ mids l) :
    ∃ x, parent_of l m = some x ∧ x.id = p := by
  rcases mem_mids.mp hin with ⟨y, hy, hyid⟩
  have hsome : (l.find? (fun x => x.id == p)).isSome := by
    rw [List.find?_isSome]
    exact ⟨y, hy, by simp [hyid]⟩
  rcases Option.isSome_iff_exists.mp hsome with ⟨x, hx⟩
  have hxp : x.id = p := by simpa using List.find?_some hx
  refine ⟨x, ?_, hxp⟩
  unfold parent_of
  rw [hp]
  exact hx

/-- Parent lookup in a sub-collection agrees with the lookup in the full
collection when identifiers are distinct. -/
theorem parent_of_lift {big rem : List Mailbox} (hnd : nodup_ids big)
    (hsub : ∀ y, y ∈ rem → y ∈ big) {m x : Mailbox}
    (h : parent_of rem m = some x) : parent_of big m = some x := by
  rcases parent_of_some h with ⟨hx, hpid⟩
  rcases @parent_of_total big m x.id hpid (mids_of_mem (hsub x hx)) with ⟨z, hz, hzid⟩
  have hzx : z = x := nodup_ids_inj hnd (parent_of_some hz).1 (hsub x hx) hzid
  rw [← hzx]
  exact hz

/-- Splitting the optional parent chain over a sum of step counts. -/
theorem parent_iter_add (l : List Mailbox) :
    ∀ a b m, parent_iter l (a + b) m = (parent_iter l a m).bind (parent_iter l b) := by
  intro a
  induction a with
  | zero =>
    intro b m
    simp [parent_iter]
  | succ k ih =>
    intro b m
    have h1 : k + 1 + b = (k + b) + 1 := by omega
    rw [h1]
    show (parent_of l m).bind (parent_iter l (k + b)) =
      ((parent_of l m).bind (parent_iter l k)).bind (parent_iter l b)
    cases hpo : parent_of l m <;> simp [ih]

/-- Splitting the total parent chain over a sum of step counts. -/
theorem iter_total_add (l : List Mailbox) :
    ∀ a b m, iter_total l (a + b) m = iter_total l b (iter_total l a m) := by
  intro a
  induction a with
  | zero =>
    intro b m
    simp [iter_total]
  | succ k ih =>
    intro b m
    have h1 : k + 1 + b = (k + b) + 1 := by omega
    rw [h1]
    show iter_total l (k + b) (parent_in l m) = iter_total l b (iter_total l (k + 1) m)
    rw [show iter_total l (k + 1) m = iter_total l k (parent_in l m) from rfl]
    exact ih b (parent_in l m)

/-- In a blocked configuration the total parent step is the real parent
and stays inside the configuration. -/
theorem blocked_step {rem : List Mailbox} (hb : all_blocked rem) {m : Mailbox}
    (hm : m ∈ rem) :
    parent_of rem m = some (parent_in rem m) ∧ parent_in rem m ∈ rem := by
  rcases hb m hm with ⟨p, hp, hpm⟩
  rcases parent_of_total hp hpm with ⟨x, hx, _⟩
  have hpi : parent_in rem m = x := by unfold parent_in; rw [hx]
  rw [hpi]
  exact ⟨hx, (parent_of_some hx).1⟩

/-- In a blocked configuration the iterated chains stay inside the
configuration and the optional chain never fails. -/
theorem blocked_iter {rem : List Mailbox} (hb : all_blocked rem) :
    ∀ k {m : Mailbox}, m ∈ rem →
      iter_total rem k m ∈ rem ∧ parent_iter rem k m = some (iter_total rem k m) := by
  intro k
  induction k with
  | zero => intro m hm; exact ⟨hm, rfl⟩
  | succ j ih =>
    intro m hm
    rcases blocked_step hb hm with ⟨hpo, hmem⟩
    rcases ih hmem with ⟨h1, h2⟩
    refine ⟨h1, ?_⟩
    show (parent_of rem m).bind (parent_iter rem j) = some (iter_total rem (j + 1) m)
    rw [hpo]
    show parent_iter rem j (parent_in rem m) = _
    rw [h2]
    rfl

/-- The optional parent chain of a sub-collection stays in it and agrees
with the chain of the full collection, identifiers being distinct. -/
theorem parent_iter_lift {big rem : List Mailbox} (hnd : nodup_ids big)
    (hsub : ∀ y, y ∈ rem → y ∈ big) :
    ∀ d {x y : Mailbox}, x ∈ rem → parent_iter rem d x = some y →
      y ∈ rem ∧ parent_iter big d x = some y := by
  intro d
  induction d with
  | zero =>
    intro x y hx h
    cases h
    exact ⟨hx, rfl⟩
  | succ k ih =>
    intro x y hx h
    have h0 : (parent_of rem x).bind (parent_iter rem k) = some y := h
    rcases hz : parent_of rem x with _ | z
    · rw [hz] at h0; cases h0
    · rw [hz] at h0
      have hz2 : z ∈ rem := (parent_of_some hz).1
      rcases ih hz2 h0 with ⟨hy, hbig⟩
      refine ⟨hy, ?_⟩
      show (parent_of big x).bind (parent_iter big k) = some y
      rw [parent_of_lift hnd hsub hz]
      exact hbig

/-- Pigeonhole argument: in a nonempty blocked configuration with
distinct identifiers, following the parent chain from the first element
as many steps as there are elements lands on a node of a cycle, and that
is exactly the node reported by cycle_node. -/
theorem blocked_cycle {rem : List Mailbox} (hnd : nodup_ids rem)
    (hne : rem ≠ []) (hb : all_blocked rem) :
    ∃ x, x ∈ rem ∧ cycle_node rem = x.id ∧
      ∃ d, 1 ≤ d ∧ d ≤ rem.length ∧ parent_iter rem d x = some x := by
  rcases List.exists_cons_of_ne_nil hne with ⟨hd, tl, rfl⟩
  set rem := hd :: tl with hrem
  have hhd : hd ∈ rem := by rw [hrem]; exact List.mem_cons_self _ _
  set n := rem.length with hn
  have key : ∀ i j : Nat, i < j → j ≤ n →
      iter_total rem i hd = iter_total rem j hd →
      ∃ d, 1 ≤ d ∧ d ≤ n ∧
        iter_total rem d (iter_total rem n hd) = iter_total rem n hd := by
    intro i j hij hj heq
    refine ⟨j - i, by omega, by omega, ?_⟩
    set y := iter_total rem i hd with hy
    have hcyc : iter_total rem (j - i) y = y := by
      rw [hy, ← iter_total_add]
      rw [show i + (j - i) = j from by omega]
      exact heq.symm
    have hx : iter_total rem n hd = iter_total rem (n - i) y := by
      rw [hy, ← iter_total_add]
      rw [show i + (n - i) = n from by omega]
    rw [hx]
    rw [← iter_total_add]
    rw [show n - i + (j - i) = (j - i) + (n - i) from by omega]
    rw [iter_total_add]
    rw [hcyc]
  have hmaps : ∀ i : Fin (n + 1), (iter_total rem (i : Nat) hd).id ∈ (mids rem).toFinset :=
    fun i => List.mem_toFinset.mpr (mids_of_mem (blocked_iter hb (i : Nat) hhd).1)
  have hcard : ((mids rem).toFinset).card < (Finset.univ : Finset (Fin (n + 1))).card := by
    have h1 : (mids rem).toFinset.card = (mids rem).length :=
      List.toFinset_card_of_nodup hnd
    have h2 : (mids rem).length = n := by
      rw [hn, hrem]
      simp [mids]
    simp [h1, h2]
  rcases Finset.exists_ne_map_eq_of_card_lt_of_maps_to hcard
      (fun a _ => hmaps a) with ⟨i, _, j, _, hij, hideq⟩
  have hvaleq : iter_total rem (i : Nat) hd = iter_total rem (j : Nat) hd :=
    nodup_ids_inj hnd (blocked_iter hb (i : Nat) hhd).1 (blocked_iter hb (j : Nat) hhd).1 hideq
  have hij2 : (i : Nat) ≠ (j : Nat) := fun hc => hij (Fin.ext hc)
  have hmain : ∃ d, 1 ≤ d ∧ d ≤ n ∧
      iter_total rem d (iter_total rem n hd) = iter_total rem n hd := by
    rcases Nat.lt_or_ge (i : Nat) (j : Nat) with hlt | hge
    · exact key i j hlt (by omega) hvaleq
    · have hlt : (j : Nat) < (i : Nat) := by omega
      exact key j i hlt (by omega) hvaleq.symm
  rcases hmain with ⟨d, hd1, hdn, hfix⟩
  refine ⟨iter_total rem n hd, (blocked_iter hb n hhd).1, ?_, d, hd1, hdn, ?_⟩
  · rw [hrem]
    rfl
  · have := (@blocked_iter rem hb d (iter_total rem n hd) (blocked_iter hb n hhd).1).2
    rw [this, hfix]

/-- A mailbox on a cycle has a parent inside the input that is itself on
a cycle. -/
theorem on_cycle_shift {mbs : List Mailbox} {m : Mailbox}
    (h : on_cycle mbs m = true) :
    ∃ m1, parent_of mbs m = some m1 ∧ m1 ∈ mbs ∧ on_cycle mbs m1 = true := by
  unfold on_cycle at h
  rcases List.any_eq_true.mp h with ⟨k, hk, hke⟩
  have hiter : parent_iter mbs (k + 1) m = some m := by simpa using hke
  have h0 : (parent_of mbs m).bind (parent_iter mbs k) = some m := hiter
  rcases hz : parent_of mbs m with _ | m1
  · rw [hz] at h0; cases h0
  · rw [hz] at h0
    refine ⟨m1, rfl, (parent_of_some hz).1, ?_⟩
    unfold on_cycle
    rw [List.any_eq_true]
    refine ⟨k, hk, ?_⟩
    have h0b : parent_iter mbs k m1 = some m := h0
    have : parent_iter mbs (k + 1) m1 = some m1 := by
      rw [parent_iter_add]
      rw [h0b]
      show parent_iter mbs 1 m = some m1
      show (parent_of mbs m).bind (parent_iter mbs 0) = some m1
      rw [hz]
      rfl
    simpa using this

/-- Identifier projection over cons. -/
theorem mids_cons (m : Mailbox) (l : List Mailbox) :
    mids (m :: l) = m.id :: mids l := rfl

/-- Identifier projection over append. -/
theorem mids_append (a b : List Mailbox) :
    mids (a ++ b) = mids a ++ mids b := by
  simp [mids]

/-- Terminal branch of the sort loop. -/
theorem sort_loop_base {rem acc l : List Mailbox}
    (h : (if rem.isEmpty then Except.ok acc.reverse
          else Except.error (cycle_node rem)) = Except.ok l) :
    rem = [] ∧ l = acc.reverse := by
  by_cases hre : rem.isEmpty = true
  · rw [if_pos hre] at h
    exact ⟨List.isEmpty_iff.mp hre, (Except.ok.inj h).symm⟩
  · rw [if_neg hre] at h
    cases h

/-- A successful sort loop run returns a permutation of the accumulated
and remaining mailboxes. -/
theorem sort_loop_perm :
    ∀ fuel rem acc l, sort_loop fuel rem acc = Except.ok l →
      l.Perm (acc.reverse ++ rem) := by
  intro fuel
  induction fuel with
  | zero =>
    intro rem acc l h
    rcases sort_loop_base h with ⟨hre, hl⟩
    subst hre
    subst hl
    simp
  | succ n ih =>
    intro rem acc l h
    rcases hp : pick_ready rem with _ | m
    · rw [show sort_loop (n + 1) rem acc =
          (if rem.isEmpty then Except.ok acc.reverse
           else Except.error (cycle_node rem)) from by
            simp only [sort_loop, hp]] at h
      rcases sort_loop_base h with ⟨hre, hl⟩
      subst hre
      subst hl
      simp
    · rw [show sort_loop (n + 1) rem acc =
          sort_loop n (rem.erase m) (m :: acc) from by
            simp only [sort_loop, hp]] at h
      have hperm := ih _ _ _ h
      have hm := (pick_ready_mem hp).1
      refine hperm.trans ?_
      rw [List.reverse_cons, List.append_assoc]
      exact List.Perm.append_left _ (by simpa using (List.perm_cons_erase hm).symm)

/-- Shrinking the later part preserves the accumulator invariant. -/
theorem acc_ok_mono :
    ∀ {acc later1 later2 : List Mailbox},
      mids later2 ⊆ mids later1 → acc_ok later1 acc → acc_ok later2 acc := by
  intro acc
  induction acc with
  | nil => intro _ _ _ _; trivial
  | cons m rest ih =>
    intro later1 later2 hsub h
    rcases h with ⟨h1, h2⟩
    refine ⟨?_, ih ?_ h2⟩
    · intro p hp hpm
      apply h1 p hp
      rw [mids_cons] at hpm ⊢
      rcases List.mem_cons.mp hpm with he | he
      · exact List.mem_cons.mpr (Or.inl he)
      · exact List.mem_cons.mpr (Or.inr (hsub he))
    · intro q hq
      rw [mids_cons] at hq ⊢
      rcases List.mem_cons.mp hq with he | he
      · exact List.mem_cons.mpr (Or.inl he)
      · exact List.mem_cons.mpr (Or.inr (hsub he))

/-- Moving a ready mailbox into the accumulator preserves the
invariant. -/
theorem acc_ok_step {rem acc : List Mailbox} {m : Mailbox}
    (hp : pick_ready rem = some m) (h : acc_ok rem acc) :
    acc_ok (rem.erase m) (m :: acc) := by
  rcases pick_ready_mem hp with ⟨hm, hready⟩
  have hsub : mids (rem.erase m) ⊆ mids rem := by
    intro q hq
    rcases mem_mids.mp hq with ⟨x, hx, hxq⟩
    exact mem_mids.mpr ⟨x, List.mem_of_mem_erase hx, hxq⟩
  refine ⟨?_, ?_⟩
  · intro p hpar hpm
    have hnotin := ready_true_iff.mp hready p hpar
    rw [mids_cons] at hpm
    rcases List.mem_cons.mp hpm with h1 | h1
    · exact hnotin (h1 ▸ mids_of_mem hm)
    · exact hnotin (hsub h1)
  · apply acc_ok_mono ?_ h
    intro q hq
    rw [mids_cons] at hq
    rcases List.mem_cons.mp hq with h1 | h1
    · exact h1 ▸ mids_of_mem hm
    · exact hsub h1

/-- The accumulator invariant means: wherever a mailbox sits in the
reversed accumulator, its parent is neither at that position nor later,
nor among the still-later mailboxes. -/
theorem acc_ok_extract :
    ∀ {acc later l₁ : List Mailbox} {c : Mailbox} {l₂ : List Mailbox},
      acc_ok later acc → acc.reverse = l₁ ++ c :: l₂ →
      ∀ p, c.parent_id = some p → p ∉ mids (c :: (l₂ ++ later)) := by
  intro acc
  induction acc with
  | nil =>
    intro later l₁ c l₂ _ heq
    exact absurd heq (by simp)
  | cons a rest ih =>
    intro later l₁ c l₂ h heq
    rcases h with ⟨ha, hrest⟩
    rw [List.reverse_cons] at heq
    rcases List.eq_nil_or_concat l₂ with rfl | ⟨l₂x, lastEl, rfl⟩
    · have hrev : a :: rest.reverse.reverse = c :: l₁.reverse := by
        have h2 := congrArg List.reverse heq
        simpa using h2
      have h1 : a = c := (List.cons.inj hrev).1
      intro p hp hpm
      apply ha p (by rw [h1]; exact hp)
      rw [← h1] at hpm
      simpa using hpm
    · have heq2 : rest.reverse ++ [a] = (l₁ ++ c :: l₂x) ++ [lastEl] := by
        rw [heq]
        simp [List.concat_eq_append]
      have hrev := congrArg List.reverse heq2
      simp only [List.reverse_append, List.reverse_cons, List.reverse_nil,
        List.nil_append, List.reverse_reverse, List.singleton_append,
        List.cons_append] at hrev
      have h1 : a = lastEl := (List.cons.inj hrev).1
      have h2 : rest = l₂x.reverse ++ [c] ++ l₁.reverse := (List.cons.inj hrev).2
      have hd : rest.reverse = l₁ ++ c :: l₂x := by
        rw [h2]
        simp
      have hmain := @ih (a :: later) l₁ c l₂x hrest hd
      intro p hp hpm
      apply hmain p hp
      rw [← h1] at hpm
      have hfix : (l₂x ++ [a]) ++ later = l₂x ++ a :: later := by simp
      rw [List.concat_eq_append, hfix] at hpm
      exact hpm

/-- A successful sort loop run started with a valid accumulator yields a
dependency-ordered output. -/
theorem sort_loop_parent_before :
    ∀ fuel rem acc l, acc_ok rem acc → sort_loop fuel rem acc = Except.ok l →
      parent_before l := by
  intro fuel
  induction fuel with
  | zero =>
    intro rem acc l hinv h
    rcases sort_loop_base h with ⟨hre, hl⟩
    subst hre
    intro l₁ c l₂ heq p hp hpmem
    have hnot := acc_ok_extract hinv (by rw [← hl]; exact heq) p hp
    rw [heq, mids_append] at hpmem
    rcases List.mem_append.mp hpmem with h1 | h1
    · exact h1
    · exact absurd (by simpa using h1) hnot
  | succ n ih =>
    intro rem acc l hinv h
    rcases hp : pick_ready rem with _ | m
    · rw [show sort_loop (n + 1) rem acc =
          (if rem.isEmpty then Except.ok acc.reverse
           else Except.error (cycle_node rem)) from by
            simp only [sort_loop, hp]] at h
      rcases sort_loop_base h with ⟨hre, hl⟩
      subst hre
      intro l₁ c l₂ heq p hpar hpmem
      have hnot := acc_ok_extract hinv (by rw [← hl]; exact heq) p hpar
      rw [heq, mids_append] at hpmem
      rcases List.mem_append.mp hpmem with h1 | h1
      · exact h1
      · exact absurd (by simpa using h1) hnot
    · rw [show sort_loop (n + 1) rem acc =
          sort_loop n (rem.erase m) (m :: acc) from by
            simp only [sort_loop, hp]] at h
      exact ih _ _ _ (acc_ok_step hp hinv) h

/-- With distinct identifiers and no cycle in the input graph, the sort
loop always succeeds. -/
theorem sort_loop_progress {mbs : List Mailbox} (hnd : nodup_ids mbs)
    (hnc : has_cycle mbs = false) :
    ∀ fuel rem acc, rem.length ≤ fuel → rem.Sublist mbs →
      ∃ l, sort_loop fuel rem acc = Except.ok l := by
  intro fuel
  induction fuel with
  | zero =>
    intro rem acc hlen _
    have hre : rem = [] := List.length_eq_zero.mp (by omega)
    subst hre
    exact ⟨acc.reverse, rfl⟩
  | succ n ih =>
    intro rem acc hlen hsl
    rcases hp : pick_ready rem with _ | m
    · by_cases hre : rem = []
      · subst hre
        exact ⟨acc.reverse, by simp [sort_loop, hp]⟩
      · exfalso
        have hb := pick_ready_none hp
        have hndrem : nodup_ids rem := List.Nodup.sublist (List.Sublist.map _ hsl) hnd
        rcases blocked_cycle hndrem hre hb with ⟨x, hx, _, d, hd1, hdn, hiter⟩
        have hsub : ∀ y, y ∈ rem → y ∈ mbs := fun y hy => hsl.subset hy
        rcases parent_iter_lift hnd hsub d hx hiter with ⟨_, hbig⟩
        have hoc : on_cycle mbs x = true := by
          unfold on_cycle
          rw [List.any_eq_true]
          have hlenle : rem.length ≤ mbs.length := hsl.length_le
          refine ⟨d - 1, List.mem_range.mpr (by omega), ?_⟩
          rw [show d - 1 + 1 = d from by omega, hbig]
          simp
        have hcyc : has_cycle mbs = true := by
          unfold has_cycle
          rw [List.any_eq_true]
          exact ⟨x, hsub x hx, hoc⟩
        rw [hnc] at hcyc
        cases hcyc
    · have hm := (pick_ready_mem hp).1
      have hlen2 : (rem.erase m).length ≤ n := by
        rw [List.length_erase_of_mem hm]
        have hnz : rem.length ≠ 0 := by
          intro hz
          rw [List.length_eq_zero] at hz
          subst hz
          cases hm
        omega
      have hsl2 : (rem.erase m).Sublist mbs := (List.erase_sublist m rem).trans hsl
      rcases ih (rem.erase m) (m :: acc) hlen2 hsl2 with ⟨l, hl⟩
      refine ⟨l, ?_⟩
      rw [show sort_loop (n + 1) rem acc = sort_loop n (rem.erase m) (m :: acc) from by
        simp only [sort_loop, hp]]
      exact hl

/-- With distinct identifiers, a cycle in the input graph makes the sort
loop fail with the identifier of a mailbox participating in a cycle,
provided every cycle member is still remaining and the fuel covers the
remaining mailboxes. -/
theorem sort_loop_cycle {mbs : List Mailbox} (hnd : nodup_ids mbs)
    {c0 : Mailbox} (hc0m : c0 ∈ mbs) (hc0c : on_cycle mbs c0 = true) :
    ∀ fuel rem acc, rem.length ≤ fuel → rem.Sublist mbs →
      (∀ m2, m2 ∈ mbs → on_cycle mbs m2 = true → m2 ∈ rem) →
      ∃ x, sort_loop fuel rem acc = Except.error x ∧
        ∃ m, m ∈ mbs ∧ m.id = x ∧ on_cycle mbs m = true := by
  intro fuel
  induction fuel with
  | zero =>
    intro rem acc hlen _ hsurv
    exfalso
    have hc0r : c0 ∈ rem := hsurv c0 hc0m hc0c
    have hre : rem = [] := List.length_eq_zero.mp (by omega)
    subst hre
    cases hc0r
  | succ n ih =>
    intro rem acc hlen hsl hsurv
    have hc0r : c0 ∈ rem := hsurv c0 hc0m hc0c
    have hre : rem ≠ [] := List.ne_nil_of_mem hc0r
    rcases hp : pick_ready rem with _ | m
    · have hb := pick_ready_none hp
      have hndrem : nodup_ids rem := List.Nodup.sublist (List.Sublist.map _ hsl) hnd
      rcases blocked_cycle hndrem hre hb with ⟨x, hx, hcn, d, hd1, hdn, hiter⟩
      have hsub : ∀ y, y ∈ rem → y ∈ mbs := fun y hy => hsl.subset hy
      rcases parent_iter_lift hnd hsub d hx hiter with ⟨_, hbig⟩
      have hoc : on_cycle mbs x = true := by
        unfold on_cycle
        rw [List.any_eq_true]
        have hlenle : rem.length ≤ mbs.length := hsl.length_le
        refine ⟨d - 1, List.mem_range.mpr (by omega), ?_⟩
        rw [show d - 1 + 1 = d from by omega, hbig]
        simp
      refine ⟨cycle_node rem, ?_, x, hsub x hx, hcn.symm, hoc⟩
      rw [show sort_loop (n + 1) rem acc =
          (if rem.isEmpty then Except.ok acc.reverse
           else Except.error (cycle_node rem)) from by
            simp only [sort_loop, hp]]
      rw [if_neg (by simpa [List.isEmpty_iff] using hre)]
    · rcases pick_ready_mem hp with ⟨hm, hready⟩
      have hmnc : on_cycle mbs m = false := by
        by_cases hoc : on_cycle mbs m = true
        · exfalso
          rcases on_cycle_shift hoc with ⟨m1, hpo, hm1, hcy1⟩
          have hm1r : m1 ∈ rem := hsurv m1 hm1 hcy1
          have hpid : m.parent_id = some m1.id := (parent_of_some hpo).2
          exact ready_true_iff.mp hready m1.id hpid (mids_of_mem hm1r)
        · exact Bool.eq_false_iff.mpr hoc
      have hsurv2 : ∀ m2, m2 ∈ mbs → on_cycle mbs m2 = true → m2 ∈ rem.erase m := by
        intro m2 h2 hcy
        have hne : m2 ≠ m := by
          intro he
          rw [he, hmnc] at hcy
          cases hcy
        exact (List.mem_erase_of_ne hne).mpr (hsurv m2 h2 hcy)
      have hlen2 : (rem.erase m).length ≤ n := by
        rw [List.length_erase_of_mem hm]
        have hnz : rem.length ≠ 0 := by
          intro hz
          rw [List.length_eq_zero] at hz
          subst hz
          cases hm
        omega
      have hsl2 : (rem.erase m).Sublist mbs := (List.erase_sublist m rem).trans hsl
      rcases ih (rem.erase m) (m :: acc) hlen2 hsl2 hsurv2 with ⟨x, hxe, hxc⟩
      refine ⟨x, ?_, hxc⟩
      rw [show sort_loop (n + 1) rem acc = sort_loop n (rem.erase m) (m :: acc) from by
        simp only [sort_loop, hp]]
      exact hxe

/-- C1: on an input with distinct identifiers, sort_mailboxes returns,
for an acyclic parent graph, an ordering of the input in which every
mailbox appears after its parent whenever the parent is in the input;
for a parent graph with a cycle it returns an error carrying the
identifier of a mailbox participating in a cycle, and restore_emails
performs no remote mailbox creation in that case (its creation list is
empty and it propagates the error). -/
theorem sort_mailboxes_toposort (mbs : List Mailbox) (hnd : nodup_ids mbs) :
    (has_cycle mbs = false →
      ∃ l, sort_mailboxes mbs = Except.ok l ∧ l.Perm mbs ∧ parent_before l) ∧
    (has_cycle mbs = true →
      (∃ x, sort_mailboxes mbs = Except.error x ∧
        ∃ m, m ∈ mbs ∧ m.id = x ∧ on_cycle mbs m = true) ∧
      (∀ server store req emails,
        load_emails store req = Except.ok emails →
        load_mailboxes store (missing_mailbox_ids (mids server) emails) =
          Except.ok mbs →
        (restore_emails server store req).created_mailboxes = [] ∧
        ∃ e, (restore_emails server store req).result = Except.error e)) := by
  constructor
  · intro hnc
    rcases sort_loop_progress hnd hnc mbs.length mbs [] (le_refl _)
      (List.Sublist.refl _) with ⟨l, hl⟩
    refine ⟨l, hl, ?_, ?_⟩
    · have hperm := sort_loop_perm _ _ _ _ hl
      simpa using hperm
    · exact sort_loop_parent_before _ _ _ _ (by trivial) hl
  · intro hc
    have hex : ∃ c0, c0 ∈ mbs ∧ on_cycle mbs c0 = true := by
      unfold has_cycle at hc
      rcases List.any_eq_true.mp hc with ⟨c0, h1, h2⟩
      exact ⟨c0, h1, h2⟩
    rcases hex with ⟨c0, hc0m, hc0c⟩
    rcases sort_loop_cycle hnd hc0m hc0c mbs.length mbs [] (le_refl _)
      (List.Sublist.refl _) (fun m2 h2 _ => h2) with ⟨x, hxe, hxc⟩
    have hse : sort_mailboxes mbs = Except.error x := hxe
    refine ⟨⟨x, hse, hxc⟩, ?_⟩
    intro server store req emails hle hlm
    simp only [restore_emails, hle, hlm, hse]
    exact ⟨trivial, x, rfl⟩

/-- Witness for the C1 theorem: a two-mailbox acyclic input for the
success branch, and a two-mailbox cycle with a concrete restore
environment for the failure branch. -/
theorem sort_mailboxes_toposort_witness :
    (nodup_ids demo_acyclic ∧
      (∃ l, sort_mailboxes demo_acyclic = Except.ok l ∧
        l.Perm demo_acyclic ∧ parent_before l)) ∧
    (nodup_ids demo_cyclic ∧
      (∃ x, sort_mailboxes demo_cyclic = Except.error x ∧
        ∃ m, m ∈ demo_cyclic ∧ m.id = x ∧ on_cycle demo_cyclic m = true)) ∧
    (load_emails demo_store_cyc ["em1w"] = Except.ok [demo_email_cyc] ∧
      load_mailboxes demo_store_cyc
        (missing_mailbox_ids (mids []) [demo_email_cyc]) = Except.ok demo_cyclic ∧
      (restore_emails [] demo_store_cyc ["em1w"]).created_mailboxes = [] ∧
      ∃ e, (restore_emails [] demo_store_cyc ["em1w"]).result = Except.error e) :=
  ⟨⟨by decide, (sort_mailboxes_toposort demo_acyclic (by decide)).1 (by decide)⟩,
   ⟨by decide, ((sort_mailboxes_toposort demo_cyclic (by decide)).2 (by decide)).1⟩,
   rfl, rfl,
   ((sort_mailboxes_toposort demo_cyclic (by decide)).2 (by decide)).2
     [] demo_store_cyc ["em1w"] [demo_email_cyc] rfl rfl⟩

/-- Mailboxes loaded from an identifier-consistent store carry exactly
the requested identifiers, in order. -/
theorem load_mailboxes_ids {store : RestoreStore}
    (hcons : ∀ id m, store.mailboxes.lookup id = some m → m.id = id) :
    ∀ {idl : List String} {ms : List Mailbox},
      load_mailboxes store idl = Except.ok ms → mids ms = idl := by
  intro idl
  induction idl with
  | nil =>
    intro ms h
    cases h
    rfl
  | cons id rest ih =>
    intro ms h
    unfold load_mailboxes at h
    rcases hl : store.mailboxes.lookup id with _ | m
    · rw [hl] at h
      cases h
    · rw [hl] at h
      rcases hr : load_mailboxes store rest with e | ms0
      · rw [hr] at h
        cases h
      · rw [hr] at h
        simp only [Except.map] at h
        cases h
        rw [mids_cons, ih hr, hcons id m hl]

/-- C3 amended: the set of mailboxes a restore creates remotely is
exactly the set of mailbox identifiers referenced by the requested
messages that are absent from the server; no missing ancestors are added,
and a referenced mailbox already on the server is never created. -/
theorem restore_creates_exactly_missing (server : List Mailbox)
    (store : RestoreStore) (req : List String) (emails : List Email)
    (to_restore sorted : List Mailbox)
    (hcons : ∀ id m, store.mailboxes.lookup id = some m → m.id = id)
    (hle : load_emails store req = Except.ok emails)
    (hlm : load_mailboxes store (missing_mailbox_ids (mids server) emails) =
      Except.ok to_restore)
    (hsort : sort_mailboxes to_restore = Except.ok sorted) :
    (restore_emails server store req).created_mailboxes = sorted ∧
    sorted.Perm to_restore ∧
    (∀ x, x ∈ mids sorted ↔
      (x ∈ emails.flatMap (fun e => e.mailbox_ids) ∧ x ∉ mids server)) ∧
    (∀ m, m ∈ sorted → m.id ∉ mids server) := by
  have hperm : sorted.Perm to_restore := by
    have hp := sort_loop_perm _ _ _ _ hsort
    simpa using hp
  have hids : mids to_restore = missing_mailbox_ids (mids server) emails :=
    load_mailboxes_ids hcons hlm
  have hmem : ∀ x, x ∈ mids sorted ↔ x ∈ mids to_restore := by
    intro x
    exact (hperm.map (fun m => m.id)).mem_iff
  have hchar : ∀ x, x ∈ mids sorted ↔
      (x ∈ emails.flatMap (fun e => e.mailbox_ids) ∧ x ∉ mids server) := by
    intro x
    rw [hmem x, hids]
    unfold missing_mailbox_ids
    simp [List.mem_filter, List.mem_dedup]
  refine ⟨?_, hperm, hchar, ?_⟩
  · simp only [restore_emails, hle, hlm, hsort]
  · intro m hm
    have hx : m.id ∈ mids sorted := mids_of_mem hm
    exact ((hchar m.id).mp hx).2

/-- Witness for the amended C3 theorem at a concrete environment. -/
theorem restore_creates_exactly_missing_witness :
    ((∀ id m, demo_store3.mailboxes.lookup id = some m → m.id = id) ∧
      load_emails demo_store3 ["em3w"] = Except.ok [demo_email3] ∧
      load_mailboxes demo_store3
        (missing_mailbox_ids (mids demo_server3) [demo_email3]) =
        Except.ok [demo_mb3] ∧
      sort_mailboxes [demo_mb3] = Except.ok [demo_mb3]) ∧
    ((restore_emails demo_server3 demo_store3 ["em3w"]).created_mailboxes =
        [demo_mb3] ∧
      List.Perm [demo_mb3] [demo_mb3] ∧
      (∀ x, x ∈ mids [demo_mb3] ↔
        (x ∈ [demo_email3].flatMap (fun (e : Email) => e.mailbox_ids) ∧
          x ∉ mids demo_server3)) ∧
      (∀ m, m ∈ [demo_mb3] → m.id ∉ mids demo_server3)) :=
  have hcons : ∀ id m, demo_store3.mailboxes.lookup id = some m → m.id = id := by
    intro id m h
    by_cases hid : id = "mbB3"
    · subst hid
      have h2 : some demo_mb3 = some m := h
      cases h2
      rfl
    · have hbeq : (id == "mbB3") = false := beq_eq_false_iff_ne.mpr hid
      simp only [demo_store3, List.lookup, hbeq] at h
      cases h
  ⟨⟨hcons, rfl, rfl, rfl⟩,
   restore_creates_exactly_missing demo_server3 demo_store3 ["em3w"]
     [demo_email3] [demo_mb3] [demo_mb3] hcons rfl rfl rfl⟩

/-- C3 counterexample: a restore whose only missing referenced mailbox
has a parent that neither exists on the server nor is referenced creates
only the referenced mailbox; the missing ancestor is not created. -/
theorem restore_ancestor_not_created :
    (restore_emails [⟨"mbA", none, "A", none⟩]
        ⟨[("em3a", ⟨"em3a", "b3", ["mbB3"], none, none⟩)],
         [("mbB3", ⟨"mbB3", some "mbP3", "B", none⟩)]⟩
        ["em3a"]).created_mailboxes = [⟨"mbB3", some "mbP3", "B", none⟩] ∧
    (⟨"mbB3", some "mbP3", "B", none⟩ : Mailbox).parent_id = some "mbP3" ∧
    "mbP3" ∉ mids [⟨"mbA", none, "A", none⟩] ∧
    "mbP3" ∉ mids (restore_emails [⟨"mbA", none, "A", none⟩]
        ⟨[("em3a", ⟨"em3a", "b3", ["mbB3"], none, none⟩)],
         [("mbB3", ⟨"mbB3", some "mbP3", "B", none⟩)]⟩
        ["em3a"]).created_mailboxes := by
  refine ⟨rfl, rfl, by decide, by decide⟩


end Postkasse
